import Mathlib

/-!
Shallow embedding of the cosmos-sdk store subsystem:
the cache KV overlay (store/cache/store.go), the root multi-store
(store/rootmulti/store.go), and the bank client message constructor
(x/bank/client/util.go).

Go `[]byte` values are modelled as `Option (List Nat)`: `none` is the Go
nil slice, `some bs` a (possibly empty) byte slice.  Go `string` keys of
the in-memory cache map are byte lists (`string(key)` of a nil slice is
the empty string).  Panics are modelled as `none` / dedicated outcome
constructors; Go errors as `Except` / `Option String`.
-/

/-- A Go byte slice's contents (each entry a byte value). -/
abbrev ByteStr := List Nat

/-- Go `[]byte`: `none` is the nil slice, `some bs` a non-nil slice. -/
abbrev GoBytes := Option ByteStr

/-- Byte-lexicographic strict order on byte strings, as Go string `<`
compares: bytewise, a strict prefix sorts first. -/
def lexLt : ByteStr → ByteStr → Bool
  | [], [] => false
  | [], _ :: _ => true
  | _ :: _, [] => false
  | a :: as, b :: bs => if a < b then true else if b < a then false else lexLt as bs

/-- Whether `p` is a leading segment of `s`. -/
def leadsWith : List Char → List Char → Bool
  | [], _ => true
  | _ :: _, [] => false
  | p :: ps, c :: cs => p = c && leadsWith ps cs

/-- Whether `pat` occurs as a contiguous segment of `s`. -/
def segIn (pat : List Char) : List Char → Bool
  | [] => pat.isEmpty
  | c :: rest => leadsWith pat (c :: rest) || segIn pat rest

namespace cache

/-- Embeds `cValue` (store/cache/store.go): a cache entry.  `value = none`
is the Go nil value. -/
structure CValue where
  value : GoBytes
  deleted : Bool
  dirty : Bool
deriving DecidableEq, Repr

/-- Embeds the `cache` field of `cache.Store`: the Go map
`map[string]cValue`, as an association list with unique keys. -/
abbrev CacheMap := List (ByteStr × CValue)

/-- Go map lookup `ci.cache[key]`. -/
def mapGet (m : CacheMap) (k : ByteStr) : Option CValue :=
  (m.find? (fun p => p.1 = k)).map Prod.snd

/-- Go map assignment `m[k] = v`: replace the entry if present, else append. -/
def mapPut (m : CacheMap) (k : ByteStr) (v : CValue) : CacheMap :=
  match m with
  | [] => [(k, v)]
  | (k', v') :: rest => if k' = k then (k, v) :: rest else (k', v') :: mapPut rest k v

/-- Embeds `cache.Store`: the overlay's in-memory map.  The parent store
and the mutex are external; parent reads are passed as an oracle. -/
structure Store where
  cache : CacheMap
deriving DecidableEq, Repr

/-- Embeds `Store.setCacheValue`: the only entrypoint that mutates the map.
`string(key)` of a non-nil key is its byte contents. -/
def setCacheValue (ci : Store) (key : ByteStr) (value : GoBytes)
    (deleted : Bool) (dirty : Bool) : Store :=
  ⟨mapPut ci.cache key ⟨value, deleted, dirty⟩⟩

/-- Embeds `Store.assertValidKey`: panics iff the key is the nil slice.
`true` means the key passes. -/
def assertValidKey (key : GoBytes) : Bool :=
  key.isSome

/-- Embeds `Store.Get`.  `parentGet` is the parent store's `Get`.
`none` models the panic from `assertValidKey`; otherwise returns the
value read and the updated overlay. -/
def Store.Get (parentGet : ByteStr → GoBytes) (ci : Store) (key : GoBytes) :
    Option (GoBytes × Store) :=
  match key with
  | none => none
  | some k =>
    match mapGet ci.cache k with
    | none =>
      let value := parentGet k
      some (value, setCacheValue ci k value false false)
    | some cacheValue => some (cacheValue.value, ci)

/-- Embeds `Store.Set`: `none` models the panic from `assertValidKey`;
no check is made on `value`. -/
def Store.Set (ci : Store) (key : GoBytes) (value : GoBytes) : Option Store :=
  match key with
  | none => none
  | some k => some (setCacheValue ci k value false true)

/-- Embeds `Store.Delete`: `none` models the panic from `assertValidKey`. -/
def Store.Delete (ci : Store) (key : GoBytes) : Option Store :=
  match key with
  | none => none
  | some k => some (setCacheValue ci k none true true)

/-- Insert into a list kept sorted ascending by `lexLt` (Go `sort.Strings`
sorts string keys bytewise ascending). -/
def insortKey (x : ByteStr) : List ByteStr → List ByteStr
  | [] => [x]
  | y :: ys => if lexLt y x then y :: insortKey x ys else x :: y :: ys

/-- Sort a list of byte-string keys ascending, as `sort.Strings` does. -/
def sortStrings (l : List ByteStr) : List ByteStr :=
  l.foldr insortKey []

/-- The single write a flush performs against the parent store: a
`parent.Delete` or a `parent.Set`. -/
inductive WriteOp
  | del (key : ByteStr)
  | set (key : ByteStr) (value : ByteStr)
deriving DecidableEq, Repr

/-- The key a `WriteOp` touches. -/
def WriteOp.key : WriteOp → ByteStr
  | .del k => k
  | .set k _ => k

/-- Embeds one iteration of the flush loop of `Store.Write`: look the key
up in the map; a tombstone becomes a parent delete, a nil value is
skipped, everything else becomes a parent set. -/
def writeOpFor (m : CacheMap) (k : ByteStr) : Option WriteOp :=
  match mapGet m k with
  | none => none
  | some cacheValue =>
    if cacheValue.deleted then some (.del k)
    else
      match cacheValue.value with
      | none => none
      | some v => some (.set k v)

/-- Embeds the flush loop of `Store.Write` over the sorted dirty keys. -/
def writeOpsOf (m : CacheMap) (keys : List ByteStr) : List WriteOp :=
  keys.filterMap (writeOpFor m)

/-- Embeds `Store.Write`: collect the dirty keys, sort them ascending,
apply each to the parent (the returned `WriteOp` list, in order), and
clear the cache map. -/
def Store.Write (ci : Store) : List WriteOp × Store :=
  let keys := (ci.cache.filter (fun p => p.2.dirty)).map Prod.fst
  let sorted := sortStrings keys
  (writeOpsOf ci.cache sorted, ⟨[]⟩)

end cache

namespace rootmulti

/-- Embeds `sdk.CommitID`: a version and a hash.  The Go nil hash and the
empty hash are identified (only `len(Hash)` is ever inspected). -/
structure CommitID where
  version : Int
  hash : ByteStr
deriving DecidableEq, Repr

/-- The zero value of `sdk.CommitID`. -/
def CommitID.zero : CommitID := ⟨0, []⟩

/-- Embeds `sdk.CommitID.IsZero`: zero version and empty hash. -/
def CommitID.isZero (c : CommitID) : Bool :=
  c.version == 0 && c.hash.isEmpty

/-- Embeds `storeCore`: the commit id of one sub-store. -/
structure StoreCore where
  CommitID_ : CommitID
deriving DecidableEq, Repr

/-- Embeds `storeInfo`: the name and core of one sub-store, a leaf of the
top-level merkle map. -/
structure StoreInfo where
  Name : String
  Core : StoreCore
deriving DecidableEq, Repr

/-- Embeds `commitInfo`: the per-version record of sub-store commit ids. -/
structure CommitInfo where
  Version : Int
  StoreInfos : List StoreInfo
deriving DecidableEq, Repr

/-- An injective-enough encoding of an `Int` as bytes (stands in for the
external binary encoder; only determinism matters). -/
def intEnc (v : Int) : ByteStr :=
  if v < 0 then 0 :: [v.natAbs] else 1 :: [v.toNat]

/-- Embeds `storeInfo.Hash`: the leaf hash covers only `Core` (the name
enters the root through the map keys).  The external cryptographic hash
is modelled by the deterministic byte encoding of the core. -/
def StoreInfo.leafHash (si : StoreInfo) : ByteStr :=
  intEnc si.Core.CommitID_.version ++ si.Core.CommitID_.hash

/-- Insert `(k, v)` into a name-sorted association list, replacing any
entry with the same key (Go map semantics plus the by-key sort the
merkle-from-map primitive performs). -/
def canonIns (k : String) (v : StoreInfo) : List (String × StoreInfo) → List (String × StoreInfo)
  | [] => [(k, v)]
  | (k', v') :: rest =>
    if k < k' then (k, v) :: (k', v') :: rest
    else if k = k' then (k, v) :: rest
    else (k', v') :: canonIns k v rest

/-- The canonical (name-sorted, last-writer-wins) form of a Go map built
by inserting the listed entries in order. -/
def canonMap (l : List (String × StoreInfo)) : List (String × StoreInfo) :=
  l.foldl (fun m p => canonIns p.1 p.2 m) []

/-- Byte encoding of the canonical entry list. -/
def encodeEntries : List (String × StoreInfo) → ByteStr
  | [] => []
  | (n, si) :: rest => 1 :: (n.toList.map Char.toNat) ++ si.leafHash ++ encodeEntries rest

/-- Modelled from the spec: `merkle.SimpleHashFromMap`, the external
merkle-from-map primitive, is a deterministic function of the map
contents alone (not of insertion order).  It is modelled as a
deterministic encoding of the canonically sorted entry list. -/
def simpleHashFromMap (m : List (String × StoreInfo)) : ByteStr :=
  encodeEntries (canonMap m)

/-- Embeds `commitInfo.Hash`: build the map `name -> storeInfo` from the
`StoreInfos` slice and take the merkle-from-map root. -/
def CommitInfo.Hash (ci : CommitInfo) : ByteStr :=
  simpleHashFromMap (ci.StoreInfos.map (fun si => (si.Name, si)))

/-- Embeds `commitInfo.CommitID`. -/
def CommitInfo.CommitID_ (ci : CommitInfo) : CommitID :=
  ⟨ci.Version, ci.Hash⟩

/-- A mounted commit sub-store (external contract).  `pruningSet` records
whether and with what strategy `SetPruning` has been called on it;
`queryable` whether it implements `sdk.Queryable`; `tag` distinguishes
store objects. -/
structure SubStore where
  tag : Nat := 0
  pruningSet : Option Nat := none
  queryable : Bool := false
deriving DecidableEq, Repr

/-- Embeds `rootmulti.Store`: the last commit id, the pruning strategy
(`sdk.PruningStrategy`, a small enum, modelled as `Nat`), the mounted
store keys (`storesParams`, each key carried by its unique name, in map
iteration order), and the loaded sub-stores.  The database handle and the
tracer are external. -/
structure Store where
  lastCommitID : CommitID
  pruning : Nat := 0
  storesParams : List String
  stores : List (String × SubStore)
deriving DecidableEq, Repr

/-- Embeds `Store.LastCommitID`. -/
def Store.LastCommitID (rs : Store) : CommitID :=
  rs.lastCommitID

/-- Embeds `Store.SetPruning`: record the strategy and propagate it to
every loaded sub-store. -/
def Store.SetPruning (rs : Store) (p : Nat) : Store :=
  { rs with
    pruning := p
    stores := rs.stores.map (fun e => (e.1, { e.2 with pruningSet := some p })) }

/-- Embeds `commitStores`: commit every sub-store (`subCommit` is the
external sub-store `Commit`), skip zero commit ids, and record a
`storeInfo` per remaining store.  `storeMap` is the `rs.stores` map in
Go's arbitrary iteration order. -/
def commitStores (subCommit : String → SubStore → CommitID) (version : Int)
    (storeMap : List (String × SubStore)) : CommitInfo :=
  ⟨version,
   (storeMap.filterMap (fun e =>
     let commitID := subCommit e.1 e.2
     if commitID.isZero then none
     else some (⟨e.1, ⟨commitID⟩⟩ : StoreInfo)))⟩

/-- Embeds `Store.Commit`: the new version is `lastCommitID.Version + 1`;
commit the sub-stores, compute the root hash, record and return the new
commit id.  The atomic batch that persists `s/<v>` and `s/latest` goes to
the external database and is not part of the returned state. -/
def Store.Commit (subCommit : String → SubStore → CommitID) (rs : Store) :
    CommitID × Store :=
  let version := rs.lastCommitID.version + 1
  let commitInfo := commitStores subCommit version rs.stores
  let commitID : CommitID := ⟨version, commitInfo.Hash⟩
  (commitID, { rs with lastCommitID := commitID })

end rootmulti

namespace rootmulti

/-- Generic Go-map lookup on a string-keyed association list. -/
def assocGet {α : Type} (m : List (String × α)) (k : String) : Option α :=
  (m.find? (fun p => p.1 = k)).map Prod.snd

/-- Generic Go-map assignment on a string-keyed association list. -/
def assocPut {α : Type} (m : List (String × α)) (k : String) (v : α) : List (String × α) :=
  match m with
  | [] => [(k, v)]
  | (k', v') :: rest => if k' = k then (k, v) :: rest else (k', v') :: assocPut rest k v

/-- Embeds `Store.nameToKey`: scan the mounted keys for one with the
given name; `none` models the `panic("Unknown name " + name)`. -/
def Store.nameToKey (rs : Store) (name : String) : Option String :=
  rs.storesParams.find? (fun key => key = name)

/-- Outcome of `Store.LoadMultiStoreVersion`: normal return with the new
receiver state, an error return (carrying the receiver state at return,
which the method never mutated on that path), or a Go panic. -/
inductive LoadOutcome
  | ok (st : Store)
  | err (st : Store) (msg : String)
  | panicked (msg : String)
deriving DecidableEq, Repr

/-- Embeds `Store.loadCommitStoreFromParams`.  `loadKV` is the external
sub-store `LoadKVStoreVersion` against the derived per-store database:
it yields the loaded store object and an optional error.  On error the
code calls `store.SetPruning(rs.pruning)` before returning. -/
def Store.loadCommitStoreFromParams (loadKV : String → CommitID → SubStore × Option String)
    (rs : Store) (name : String) (id : CommitID) : SubStore × Option String :=
  let res := loadKV name id
  match res.2 with
  | some e => ({ res.1 with pruningSet := some rs.pruning }, some e)
  | none => (res.1, none)

/-- Embeds the first loop of `Store.LoadMultiStoreVersion`: convert the
`StoreInfos` slice to the map `storeKey -> storeInfo`, resolving each
name through `nameToKey` (whose failure is a panic). -/
def Store.buildInfos (rs : Store) (acc : List (String × StoreInfo)) :
    List StoreInfo → Except String (List (String × StoreInfo))
  | [] => .ok acc
  | si :: rest =>
    match rs.nameToKey si.Name with
    | none => .error ("Unknown name " ++ si.Name)
    | some key => rs.buildInfos (assocPut acc key si) rest

/-- The commit id a mounted store is loaded with: the one recorded in the
infos map, or the zero value of `var id sdk.CommitID` when absent. -/
def expectedID (infos : List (String × StoreInfo)) (key : String) : CommitID :=
  match assocGet infos key with
  | some info => info.Core.CommitID_
  | none => CommitID.zero

/-- Embeds the second loop of `Store.LoadMultiStoreVersion`: load each
mounted store with its expected commit id (zero when the infos map has no
entry), aborting with a wrapping error on the first failure; on success
swap in the new store set and the last commit id. -/
def loadStoresGo (loadKV : String → CommitID → SubStore × Option String)
    (rs : Store) (infos : List (String × StoreInfo)) (lastCID : CommitID)
    (acc : List (String × SubStore)) : List String → LoadOutcome
  | [] => .ok { rs with lastCommitID := lastCID, stores := acc }
  | key :: rest =>
    let id := expectedID infos key
    let res := rs.loadCommitStoreFromParams loadKV key id
    match res.2 with
    | some e => .err rs ("failed to load Store: " ++ e)
    | none => loadStoresGo loadKV rs infos lastCID (acc ++ [(key, res.1)]) rest

/-- Embeds `Store.LoadMultiStoreVersion`.  `getCI` is `getCommitInfo`
against the external database (its two failure modes, missing data and
decode failure, arrive as its error). -/
def Store.LoadMultiStoreVersion (getCI : Int → Except String CommitInfo)
    (loadKV : String → CommitID → SubStore × Option String)
    (rs : Store) (ver : Int) : LoadOutcome :=
  if ver = 0 then
    loadStoresGo loadKV rs [] CommitID.zero [] rs.storesParams
  else
    match getCI ver with
    | .error e => .err rs e
    | .ok cInfo =>
      match rs.buildInfos [] cInfo.StoreInfos with
      | .error msg => .panicked msg
      | .ok infos => loadStoresGo loadKV rs infos cInfo.CommitID_ [] rs.storesParams

/-- Splits a character list at the first slash, as
`strings.SplitN(s, "/", 2)` does: `(s, none)` when there is no slash,
else the parts before and after the first slash. -/
def splitFirstSlash : List Char → List Char × Option (List Char)
  | [] => ([], none)
  | c :: rest =>
    if c = '/' then ([], some rest)
    else
      let r := splitFirstSlash rest
      (c :: r.1, r.2)

/-- Embeds `parsePath`: the path must start with a slash; the first
segment is the store name; the remainder, when present, keeps a leading
slash. -/
def parsePath (path : List Char) : Except (List Char) (List Char × List Char) :=
  if leadsWith "/".toList path = false then
    .error ("invalid path: ".toList ++ path)
  else
    let r := splitFirstSlash (path.drop 1)
    match r.2 with
    | none => .ok (r.1, [])
    | some sub => .ok (r.1, '/' :: sub)

/-- A query outcome: a structured error response (`QueryResult` of an
`sdk.Error`) or delegation to the named sub-store with the rewritten
path. -/
inductive QueryRes
  | errResp (msg : List Char)
  | delegated (storeName : List Char) (subpath : List Char)
deriving DecidableEq, Repr

/-- Embeds `Store.Query` up to the delegation `queryable.Query(req)` with
`req.Path` rewritten to the subpath (the proof-extension branch guarded
by `req.Prove` delegates identically and is outside this model). -/
def Store.Query (rs : Store) (path : List Char) : QueryRes :=
  match parsePath path with
  | .error e => .errResp e
  | .ok parsed =>
    let storeName := parsed.1
    match assocGet rs.stores (String.mk storeName) with
    | none => .errResp ("no such store: ".toList ++ storeName)
    | some store =>
      if store.queryable then .delegated storeName parsed.2
      else .errResp ("store ".toList ++ storeName ++ " doesn't support queries".toList)

end rootmulti

namespace bank

/-- An account address (opaque bytes). -/
abbrev AccAddress := ByteStr

/-- A coin: denomination and amount. -/
structure Coin where
  denom : String
  amount : Int
deriving DecidableEq, Repr

/-- A set of coins. -/
abbrev Coins := List Coin

/-- A transfer input: an address and the coins it pays. -/
structure Input where
  address : AccAddress
  coins : Coins
deriving DecidableEq, Repr

/-- A transfer output: an address and the coins it receives. -/
structure Output where
  address : AccAddress
  coins : Coins
deriving DecidableEq, Repr

/-- A multi-input multi-output bank send message. -/
structure MsgSend where
  inputs : List Input
  outputs : List Output
deriving DecidableEq, Repr

/-- Modelled from the spec: `bank.NewInput` (x/bank, not under src/)
constructs the input record from an address and coins. -/
def NewInput (addr : AccAddress) (coins : Coins) : Input := ⟨addr, coins⟩

/-- Modelled from the spec: `bank.NewOutput` (x/bank, not under src/)
constructs the output record from an address and coins. -/
def NewOutput (addr : AccAddress) (coins : Coins) : Output := ⟨addr, coins⟩

/-- Modelled from the spec: `bank.NewMsgSend` (x/bank, not under src/)
wraps the given inputs and outputs in a `MsgSend`. -/
def NewMsgSend (ins : List Input) (outs : List Output) : MsgSend := ⟨ins, outs⟩

/-- Embeds `client.CreateMsg` (x/bank/client/util.go). -/
def CreateMsg (fromAddr toAddr : AccAddress) (coins : Coins) : MsgSend :=
  let input := NewInput fromAddr coins
  let output := NewOutput toAddr coins
  let msg := NewMsgSend [input] [output]
  msg

/-- All coins paid by the inputs of a message. -/
def totalInputCoins (msg : MsgSend) : Coins :=
  (msg.inputs.map Input.coins).flatten

/-- All coins received by the outputs of a message. -/
def totalOutputCoins (msg : MsgSend) : Coins :=
  (msg.outputs.map Output.coins).flatten

end bank

/-- Run a sequence of `Commit` calls (one sub-store commit oracle per
call), returning the list of returned commit ids and the final store. -/
def rootmulti.commitSeq (rs : rootmulti.Store) :
    List (String → rootmulti.SubStore → rootmulti.CommitID) →
      List rootmulti.CommitID × rootmulti.Store
  | [] => ([], rs)
  | f :: rest =>
    let r := rs.Commit f
    let tail := rootmulti.commitSeq r.2 rest
    (r.1 :: tail.1, tail.2)

/-- A concrete root store fixture with one mounted store key, used to
evaluate the load path. -/
def rootmulti.sampleStore : rootmulti.Store := ⟨⟨0, []⟩, 0, ["acc"], []⟩

/-- A sub-store load oracle that always fails. -/
def rootmulti.failLoadKV : String → rootmulti.CommitID → rootmulti.SubStore × Option String :=
  fun _ _ => (⟨0, none, false⟩, some "boom")

/-- A commit-info oracle holding a single record whose store name is not
mounted in `sampleStore`. -/
def rootmulti.strayCI : Int → Except String rootmulti.CommitInfo :=
  fun _ => .ok ⟨3, [⟨"gov", ⟨⟨3, [1]⟩⟩⟩]⟩

/-! ## Theorems -/

theorem lexLt_irrefl (a : ByteStr) : lexLt a a = false := by
  induction a with
  | nil => rfl
  | cons x xs ih => simp [lexLt, ih]

theorem lexLt_asymm (a b : ByteStr) (h : lexLt a b = true) : lexLt b a = false := by
  induction a generalizing b with
  | nil =>
    cases b with
    | nil => simp [lexLt] at h
    | cons y ys => simp [lexLt]
  | cons x xs ih =>
    cases b with
    | nil => simp [lexLt] at h
    | cons y ys =>
      simp only [lexLt] at h ⊢
      rcases Nat.lt_trichotomy x y with hlt | heq | hgt
      · simp [hlt, Nat.not_lt.mpr (Nat.le_of_lt hlt), Nat.lt_irrefl]
      · subst heq
        simp only [Nat.lt_irrefl, if_false] at h ⊢
        exact ih ys h
      · simp [hgt, Nat.not_lt.mpr (Nat.le_of_lt hgt)] at h

theorem lexLt_trans (a b c : ByteStr) (hab : lexLt a b = true) (hbc : lexLt b c = true) :
    lexLt a c = true := by
  induction a generalizing b c with
  | nil =>
    cases c with
    | nil =>
      cases b with
      | nil => exact hab
      | cons y ys => simp [lexLt] at hbc
    | cons z zs => simp [lexLt]
  | cons x xs ih =>
    cases b with
    | nil => simp [lexLt] at hab
    | cons y ys =>
      cases c with
      | nil => simp [lexLt] at hbc
      | cons z zs =>
        simp only [lexLt] at hab hbc ⊢
        rcases Nat.lt_trichotomy x y with hxy | hxy | hxy
        · rcases Nat.lt_trichotomy y z with hyz | hyz | hyz
          · simp [Nat.lt_trans hxy hyz]
          · subst hyz; simp [hxy]
          · simp [hyz, Nat.not_lt.mpr (Nat.le_of_lt hyz)] at hbc
        · subst hxy
          rcases Nat.lt_trichotomy x z with hxz | hxz | hxz
          · simp [hxz]
          · subst hxz
            simp only [Nat.lt_irrefl, if_false] at hab hbc ⊢
            exact ih ys zs hab hbc
          · simp [hxz, Nat.not_lt.mpr (Nat.le_of_lt hxz)] at hbc
        · simp [hxy, Nat.not_lt.mpr (Nat.le_of_lt hxy)] at hab

theorem lexLt_connex (a b : ByteStr) (hab : lexLt a b = false) (hba : lexLt b a = false) :
    a = b := by
  induction a generalizing b with
  | nil =>
    cases b with
    | nil => rfl
    | cons y ys => simp [lexLt] at hab
  | cons x xs ih =>
    cases b with
    | nil => simp [lexLt] at hba
    | cons y ys =>
      simp only [lexLt] at hab hba
      rcases Nat.lt_trichotomy x y with hxy | hxy | hxy
      · simp [hxy] at hab
      · subst hxy
        simp only [Nat.lt_irrefl, if_false] at hab hba
        rw [ih ys hab hba]
      · simp [hxy, Nat.not_lt.mpr (Nat.le_of_lt hxy)] at hba

theorem mapGet_mapPut (m : cache.CacheMap) (k : ByteStr) (v : cache.CValue) :
    cache.mapGet (cache.mapPut m k v) k = some v := by
  induction m with
  | nil => simp [cache.mapPut, cache.mapGet, List.find?]
  | cons p rest ih =>
    obtain ⟨k', v'⟩ := p
    by_cases h : k' = k
    · subst h
      simp [cache.mapPut, cache.mapGet, List.find?]
    · simp only [cache.mapPut, if_neg h]
      simpa [cache.mapGet, List.find?, h] using ih

/-- Claim C10: `CreateMsg` returns a bank `MsgSend` with exactly one input,
carrying the sender and the coins, and exactly one output, carrying the
recipient and the same coins, so the total coins in inputs equal the total
coins in outputs. -/
theorem claim_C10_createMsg_balanced (fromAddr toAddr : bank.AccAddress) (coins : bank.Coins) :
    (bank.CreateMsg fromAddr toAddr coins).inputs = [⟨fromAddr, coins⟩]
    ∧ (bank.CreateMsg fromAddr toAddr coins).outputs = [⟨toAddr, coins⟩]
    ∧ bank.totalInputCoins (bank.CreateMsg fromAddr toAddr coins)
        = bank.totalOutputCoins (bank.CreateMsg fromAddr toAddr coins) := by
  refine ⟨rfl, rfl, ?_⟩
  simp [bank.CreateMsg, bank.NewMsgSend, bank.NewInput, bank.NewOutput,
    bank.totalInputCoins, bank.totalOutputCoins]

/-- Claim C4 as stated is false: the empty (but non-nil) key is accepted by
the overlay's get, set and delete — none of them aborts on it, although the
claim requires an abort for the empty key as well. -/
theorem claim_C4_counterexample :
    (cache.Store.Set ⟨[]⟩ (some []) (some [1])).isSome = true
    ∧ (cache.Store.Delete ⟨[]⟩ (some [])).isSome = true
    ∧ (cache.Store.Get (fun _ => none) ⟨[]⟩ (some [])).isSome = true := by
  decide

/-- Claim C4 amended: the overlay's get, set and delete abort with the
invalid-key panic iff the key is the nil slice; an empty non-nil key passes
`assertValidKey`. -/
theorem claim_C4_invalid_key_nil_only (parentGet : ByteStr → GoBytes)
    (ci : cache.Store) (key value : GoBytes) :
    ((cache.Store.Get parentGet ci key = none) ↔ key = none)
    ∧ ((cache.Store.Set ci key value = none) ↔ key = none)
    ∧ ((cache.Store.Delete ci key = none) ↔ key = none)
    ∧ (cache.assertValidKey key = false ↔ key = none) := by
  cases key with
  | none => simp [cache.Store.Get, cache.Store.Set, cache.Store.Delete, cache.assertValidKey]
  | some k =>
    refine ⟨?_, by simp [cache.Store.Set], by simp [cache.Store.Delete],
      by simp [cache.assertValidKey]⟩
    simp only [cache.Store.Get]
    cases cache.mapGet ci.cache k <;> simp

/-- Claim C5 as stated is false: set with a nil value is not rejected; it
succeeds and records the dirty entry `(nil, deleted=false, dirty=true)`. -/
theorem claim_C5_counterexample :
    cache.Store.Set ⟨[]⟩ (some [107]) none
      = some ⟨[([107], ⟨none, false, true⟩)]⟩ := by
  decide

/-- Claim C5 amended: the overlay's set checks only the key; for any
non-nil key it succeeds for every value, nil included, recording the entry
`(value, deleted=false, dirty=true)` in the cache map. -/
theorem claim_C5_set_records_value (ci : cache.Store) (k : ByteStr) (value : GoBytes) :
    ∃ ci', cache.Store.Set ci (some k) value = some ci'
      ∧ cache.mapGet ci'.cache k = some ⟨value, false, true⟩ := by
  refine ⟨cache.setCacheValue ci k value false true, rfl, ?_⟩
  simpa [cache.setCacheValue] using mapGet_mapPut ci.cache k ⟨value, false, true⟩

/-- Claim C8: during a sub-store load, the configured pruning strategy is
applied to the sub-store exactly on the branch where the external
`LoadKVStoreVersion` returned an error; on success the loaded store is
returned untouched, and the strategy reaches the loaded sub-stores only
through `SetPruning` on the root. -/
theorem claim_C8_pruning_only_on_error
    (loadKV : String → rootmulti.CommitID → rootmulti.SubStore × Option String)
    (rs : rootmulti.Store) (name : String) (id : rootmulti.CommitID) :
    ((loadKV name id).2 ≠ none →
       (rs.loadCommitStoreFromParams loadKV name id).1.pruningSet = some rs.pruning)
    ∧ ((loadKV name id).2 = none →
       (rs.loadCommitStoreFromParams loadKV name id).1 = (loadKV name id).1)
    ∧ (∀ p, ∀ e ∈ (rs.SetPruning p).stores, e.2.pruningSet = some p) := by
  refine ⟨?_, ?_, ?_⟩
  · intro hne
    simp only [rootmulti.Store.loadCommitStoreFromParams]
    cases h : (loadKV name id).2 with
    | none => exact absurd h hne
    | some e => simp [h]
  · intro hnone
    simp [rootmulti.Store.loadCommitStoreFromParams, hnone]
  · intro p e he
    simp only [rootmulti.Store.SetPruning, List.mem_map] at he
    obtain ⟨a, _, rfl⟩ := he
    rfl

/-- Witness for C8 at concrete inputs: a failing load gets the strategy
applied, a succeeding load stays untouched. -/
theorem claim_C8_witness :
    ((rootmulti.Store.mk ⟨0, []⟩ 7 ["acc"] []).loadCommitStoreFromParams
        (fun _ _ => (⟨0, none, false⟩, some "boom")) "acc" rootmulti.CommitID.zero).1.pruningSet
      = some 7
    ∧ ((rootmulti.Store.mk ⟨0, []⟩ 7 ["acc"] []).loadCommitStoreFromParams
        (fun _ _ => (⟨0, none, false⟩, none)) "acc" rootmulti.CommitID.zero).1
      = ⟨0, none, false⟩ := by
  refine ⟨?_, ?_⟩
  · exact (claim_C8_pruning_only_on_error (fun _ _ => (⟨0, none, false⟩, some "boom"))
      (rootmulti.Store.mk ⟨0, []⟩ 7 ["acc"] []) "acc" rootmulti.CommitID.zero).1 (by decide)
  · exact (claim_C8_pruning_only_on_error (fun _ _ => (⟨0, none, false⟩, none))
      (rootmulti.Store.mk ⟨0, []⟩ 7 ["acc"] []) "acc" rootmulti.CommitID.zero).2.1 (by decide)

theorem commitSeq_versions
    (subs : List (String → rootmulti.SubStore → rootmulti.CommitID)) :
    ∀ rs : rootmulti.Store,
      ((rootmulti.commitSeq rs subs).1.map rootmulti.CommitID.version
        = (List.range subs.length).map (fun (k : Nat) => rs.lastCommitID.version + (k : Int) + 1))
      ∧ (rootmulti.commitSeq rs subs).2.lastCommitID.version
          = rs.lastCommitID.version + subs.length := by
  induction subs with
  | nil => intro rs; simp [rootmulti.commitSeq]
  | cons f rest ih =>
    intro rs
    have hstep : ((rs.Commit f).2).lastCommitID.version = rs.lastCommitID.version + 1 := rfl
    have hhead : ((rs.Commit f).1).version = rs.lastCommitID.version + 1 := rfl
    obtain ⟨ih1, ih2⟩ := ih (rs.Commit f).2
    refine ⟨?_, ?_⟩
    · simp only [rootmulti.commitSeq, List.map_cons, List.length_cons,
        List.range_succ_eq_map, List.map_map, List.cons.injEq]
      refine ⟨by rw [hhead]; push_cast; ring, ?_⟩
      rw [ih1, hstep]
      apply List.map_congr_left
      intro k _
      simp only [Function.comp]
      push_cast
      ring
    · simp only [rootmulti.commitSeq, List.length_cons]
      rw [ih2, hstep]
      push_cast
      ring

/-- Claim C1: from a fresh root multi-store (last commit id version 0),
any sequence of `Commit` calls returns versions 1, 2, 3, ... with no
gaps; moreover, for every state, `Commit` returns exactly
`lastCommitID.version + 1` and afterwards `LastCommitID` equals the
commit id just returned. -/
theorem claim_C1_commit_monotonicity (rs : rootmulti.Store)
    (h : rs.lastCommitID.version = 0)
    (subs : List (String → rootmulti.SubStore → rootmulti.CommitID)) :
    ((rootmulti.commitSeq rs subs).1.map rootmulti.CommitID.version
        = (List.range subs.length).map (fun (k : Nat) => (k : Int) + 1))
    ∧ (∀ (f : String → rootmulti.SubStore → rootmulti.CommitID) (st : rootmulti.Store),
        (st.Commit f).1.version = st.LastCommitID.version + 1
        ∧ (st.Commit f).2.LastCommitID = (st.Commit f).1) := by
  constructor
  · have h1 := (commitSeq_versions subs rs).1
    rw [h] at h1
    simpa using h1
  · intro f st
    exact ⟨rfl, rfl⟩

/-- Witness for C1: a concrete fresh store with one mounted sub-store,
committed twice, returns versions 1 and 2. -/
theorem claim_C1_witness :
    ((rootmulti.commitSeq (rootmulti.Store.mk ⟨0, []⟩ 0 ["acc"] [("acc", ⟨1, none, false⟩)])
        [fun _ _ => ⟨1, [5]⟩, fun _ _ => ⟨2, [6]⟩]).1.map rootmulti.CommitID.version)
      = [1, 2] := by
  have h := (claim_C1_commit_monotonicity
    (rootmulti.Store.mk ⟨0, []⟩ 0 ["acc"] [("acc", ⟨1, none, false⟩)]) rfl
    [fun _ _ => ⟨1, [5]⟩, fun _ _ => ⟨2, [6]⟩]).1
  simpa using h

/-- Claim C7: query routing returns structured responses: a missing
leading slash yields the invalid-path error; a first segment naming no
mounted store yields the unknown-store error; a mounted store without the
query capability yields the unsupported error; otherwise the request is
delegated to that store with its path rewritten to the sub-path. -/
theorem claim_C7_query_routing (rs : rootmulti.Store) (path : List Char) :
    (leadsWith ['/'] path = false →
       rs.Query path = .errResp ("invalid path: ".toList ++ path))
    ∧ (leadsWith ['/'] path = true →
       (rootmulti.assocGet rs.stores
            (String.mk (rootmulti.splitFirstSlash path.tail).1) = none →
          rs.Query path
            = .errResp ("no such store: ".toList ++ (rootmulti.splitFirstSlash path.tail).1))
       ∧ (∀ st, rootmulti.assocGet rs.stores
            (String.mk (rootmulti.splitFirstSlash path.tail).1) = some st →
          (st.queryable = false →
             rs.Query path
               = .errResp ("store ".toList ++ (rootmulti.splitFirstSlash path.tail).1
                   ++ " doesn't support queries".toList))
          ∧ (st.queryable = true →
             rs.Query path
               = .delegated (rootmulti.splitFirstSlash path.tail).1
                   (match (rootmulti.splitFirstSlash path.tail).2 with
                    | none => []
                    | some sub => '/' :: sub)))) := by
  constructor
  · intro hno
    simp [rootmulti.Store.Query, rootmulti.parsePath, hno, List.drop_one]
  · intro hyes
    constructor
    · intro hnone
      cases h2 : (rootmulti.splitFirstSlash path.tail).2 <;>
        simp [rootmulti.Store.Query, rootmulti.parsePath, hyes, List.drop_one, h2, hnone]
    · intro st hst
      constructor
      · intro hq
        cases h2 : (rootmulti.splitFirstSlash path.tail).2 <;>
          simp [rootmulti.Store.Query, rootmulti.parsePath, hyes, List.drop_one, h2, hst, hq]
      · intro hq
        cases h2 : (rootmulti.splitFirstSlash path.tail).2 <;>
          simp [rootmulti.Store.Query, rootmulti.parsePath, hyes, List.drop_one, h2, hst, hq]

/-- Witness for C7 at concrete inputs: a path without a leading slash is
rejected as invalid, an unmounted store name is unknown, and a mounted
queryable store receives the rewritten sub-path. -/
theorem claim_C7_witness :
    (rootmulti.Store.mk ⟨0, []⟩ 0 ["X"] [("X", ⟨0, none, true⟩)]).Query "X/k".toList
      = .errResp "invalid path: X/k".toList
    ∧ (rootmulti.Store.mk ⟨0, []⟩ 0 ["X"] [("X", ⟨0, none, true⟩)]).Query "/Z/k".toList
      = .errResp "no such store: Z".toList
    ∧ (rootmulti.Store.mk ⟨0, []⟩ 0 ["X"] [("X", ⟨0, none, true⟩)]).Query "/X/k".toList
      = .delegated "X".toList "/k".toList := by
  refine ⟨?_, ?_, ?_⟩
  · have h := (claim_C7_query_routing
      (rootmulti.Store.mk ⟨0, []⟩ 0 ["X"] [("X", ⟨0, none, true⟩)]) "X/k".toList).1 (by decide)
    simpa using h
  · have h := ((claim_C7_query_routing
      (rootmulti.Store.mk ⟨0, []⟩ 0 ["X"] [("X", ⟨0, none, true⟩)]) "/Z/k".toList).2
        (by decide)).1 (by decide)
    simpa using h
  · have h := (((claim_C7_query_routing
      (rootmulti.Store.mk ⟨0, []⟩ 0 ["X"] [("X", ⟨0, none, true⟩)]) "/X/k".toList).2
        (by decide)).2 ⟨0, none, true⟩ (by decide)).2 (by decide)
    simpa using h

theorem nameToKey_eq_none (rs : rootmulti.Store) (n : String) :
    rs.nameToKey n = none ↔ n ∉ rs.storesParams := by
  unfold rootmulti.Store.nameToKey
  rw [List.find?_eq_none]
  constructor
  · intro h hn
    exact h n hn (by simp)
  · intro h x hx
    simp only [decide_eq_true_eq]
    intro he
    exact h (he ▸ hx)

theorem buildInfos_unknown (rs : rootmulti.Store) :
    ∀ (sis : List rootmulti.StoreInfo) (acc : List (String × rootmulti.StoreInfo)),
      (∃ si ∈ sis, rs.nameToKey si.Name = none) →
      ∃ n, (∃ si ∈ sis, si.Name = n) ∧ rs.nameToKey n = none
        ∧ rs.buildInfos acc sis = .error ("Unknown name " ++ n) := by
  intro sis
  induction sis with
  | nil => intro acc h; obtain ⟨si, hmem, _⟩ := h; exact absurd hmem (List.not_mem_nil si)
  | cons si rest ih =>
    intro acc h
    cases hk : rs.nameToKey si.Name with
    | none =>
      refine ⟨si.Name, ⟨si, List.mem_cons_self si rest, rfl⟩, hk, ?_⟩
      simp [rootmulti.Store.buildInfos, hk]
    | some key =>
      obtain ⟨si', hmem, hnone⟩ := h
      rcases List.mem_cons.mp hmem with rfl | hmem'
      · exact absurd hk (by simp [hnone])
      · obtain ⟨n, ⟨si'', hm, hn⟩, hnk, hb⟩ := ih (rootmulti.assocPut acc key si) ⟨si', hmem', hnone⟩
        refine ⟨n, ⟨si'', List.mem_cons_of_mem si hm, hn⟩, hnk, ?_⟩
        simpa [rootmulti.Store.buildInfos, hk] using hb

/-- Claim C9: loading a non-zero version whose persisted commit info holds
a store info whose name is not among the mounted store keys panics with
the unknown-name message (through `nameToKey`), rather than returning an
error or falling back to a zero commit id for that entry. -/
theorem claim_C9_unknown_name_panics
    (getCI : Int → Except String rootmulti.CommitInfo)
    (loadKV : String → rootmulti.CommitID → rootmulti.SubStore × Option String)
    (rs : rootmulti.Store) (ver : Int) (ci : rootmulti.CommitInfo)
    (hver : ver ≠ 0) (hci : getCI ver = Except.ok ci)
    (hbad : ∃ si ∈ ci.StoreInfos, si.Name ∉ rs.storesParams) :
    ∃ n, n ∉ rs.storesParams ∧ (∃ si ∈ ci.StoreInfos, si.Name = n)
      ∧ rs.LoadMultiStoreVersion getCI loadKV ver
          = .panicked ("Unknown name " ++ n) := by
  obtain ⟨si, hmem, hnk⟩ := hbad
  obtain ⟨n, hns, hnone, hb⟩ := buildInfos_unknown rs ci.StoreInfos []
    ⟨si, hmem, (nameToKey_eq_none rs si.Name).mpr hnk⟩
  refine ⟨n, (nameToKey_eq_none rs n).mp hnone, hns, ?_⟩
  simp [rootmulti.Store.LoadMultiStoreVersion, hver, hci, hb]

/-- Witness for C9: a store mounting only "acc" loaded at version 3 whose
commit info names "gov" panics with the unknown-name message. -/
theorem claim_C9_witness :
    ∃ n, n ∉ rootmulti.sampleStore.storesParams
      ∧ (∃ si ∈ (⟨3, [⟨"gov", ⟨⟨3, [1]⟩⟩⟩]⟩ : rootmulti.CommitInfo).StoreInfos, si.Name = n)
      ∧ rootmulti.sampleStore.LoadMultiStoreVersion rootmulti.strayCI rootmulti.failLoadKV 3
          = .panicked ("Unknown name " ++ n) :=
  claim_C9_unknown_name_panics rootmulti.strayCI rootmulti.failLoadKV
    rootmulti.sampleStore 3 ⟨3, [⟨"gov", ⟨⟨3, [1]⟩⟩⟩]⟩ (by decide) rfl
    (by simp [rootmulti.sampleStore])

theorem loadCommitStoreFromParams_snd
    (loadKV : String → rootmulti.CommitID → rootmulti.SubStore × Option String)
    (rs : rootmulti.Store) (name : String) (id : rootmulti.CommitID) :
    (rs.loadCommitStoreFromParams loadKV name id).2 = (loadKV name id).2 := by
  unfold rootmulti.Store.loadCommitStoreFromParams
  cases h : (loadKV name id).2 <;> simp [h]

theorem loadStoresGo_err
    (loadKV : String → rootmulti.CommitID → rootmulti.SubStore × Option String)
    (rs : rootmulti.Store) (infos : List (String × rootmulti.StoreInfo))
    (lastCID : rootmulti.CommitID) :
    ∀ (names : List String) (acc : List (String × rootmulti.SubStore))
      (st : rootmulti.Store) (msg : String),
      rootmulti.loadStoresGo loadKV rs infos lastCID acc names = .err st msg →
      st = rs ∧ ∃ name id e, name ∈ names ∧ (loadKV name id).2 = some e
        ∧ msg = "failed to load Store: " ++ e := by
  intro names
  induction names with
  | nil => intro acc st msg h; simp [rootmulti.loadStoresGo] at h
  | cons key rest ih =>
    intro acc st msg h
    cases hres : (rs.loadCommitStoreFromParams loadKV key (rootmulti.expectedID infos key)).2 with
    | some e =>
      simp only [rootmulti.loadStoresGo, hres, rootmulti.LoadOutcome.err.injEq] at h
      obtain ⟨h1, h2⟩ := h
      refine ⟨h1.symm, key, rootmulti.expectedID infos key, e, List.mem_cons_self key rest, ?_, h2.symm⟩
      rw [← loadCommitStoreFromParams_snd loadKV rs key (rootmulti.expectedID infos key)]
      exact hres
    | none =>
      simp only [rootmulti.loadStoresGo, hres] at h
      obtain ⟨h1, name, id, e, hmem, he, hm⟩ := ih _ st msg h
      exact ⟨h1, name, id, e, List.mem_cons_of_mem key hmem, he, hm⟩

/-- Claim C6 as stated is false: when a mounted sub-store's load fails,
the returned error wraps only the sub-store's own error, not the
sub-store's name.  Here the only mounted store is "zzz", its load fails
with "boom", and the returned message contains no occurrence of "zzz". -/
theorem claim_C6_counterexample :
    (rootmulti.Store.mk ⟨0, []⟩ 0 ["zzz"] []).LoadMultiStoreVersion
        (fun _ => .error "no data") (fun _ _ => (⟨0, none, false⟩, some "boom")) 0
      = .err (rootmulti.Store.mk ⟨0, []⟩ 0 ["zzz"] []) "failed to load Store: boom"
    ∧ segIn "zzz".toList "failed to load Store: boom".toList = false := by
  constructor
  · rfl
  · decide

/-- Claim C6 amended: every error return of `LoadMultiStoreVersion`
leaves the root's observable state unchanged, and a sub-store load
failure is wrapped with the fixed prefix "failed to load Store: " around
the sub-store's own error (the sub-store's name is not part of the
wrap). -/
theorem claim_C6_load_failure
    (getCI : Int → Except String rootmulti.CommitInfo)
    (loadKV : String → rootmulti.CommitID → rootmulti.SubStore × Option String)
    (rs : rootmulti.Store) (ver : Int) (st : rootmulti.Store) (msg : String)
    (h : rs.LoadMultiStoreVersion getCI loadKV ver = .err st msg) :
    st = rs
    ∧ ((∃ e, getCI ver = .error e ∧ msg = e)
       ∨ (∃ name id e, name ∈ rs.storesParams ∧ (loadKV name id).2 = some e
            ∧ msg = "failed to load Store: " ++ e)) := by
  by_cases hver : ver = 0
  · simp only [rootmulti.Store.LoadMultiStoreVersion, hver, if_true] at h
    obtain ⟨h1, rest⟩ := loadStoresGo_err loadKV rs [] rootmulti.CommitID.zero
      rs.storesParams [] st msg (by simpa using h)
    exact ⟨h1, Or.inr rest⟩
  · simp only [rootmulti.Store.LoadMultiStoreVersion, hver, if_false] at h
    cases hci : getCI ver with
    | error e =>
      rw [hci] at h
      simp only [rootmulti.LoadOutcome.err.injEq] at h
      exact ⟨h.1.symm, Or.inl ⟨e, rfl, h.2.symm⟩⟩
    | ok cInfo =>
      rw [hci] at h
      cases hb : rs.buildInfos [] cInfo.StoreInfos with
      | error m => simp only [hb] at h; exact absurd h (by simp)
      | ok infos =>
        simp only [hb] at h
        obtain ⟨h1, rest⟩ := loadStoresGo_err loadKV rs infos cInfo.CommitID_
          rs.storesParams [] st msg h
        exact ⟨h1, Or.inr rest⟩

/-- Witness for C6 at the counterexample configuration: the amended
theorem applied to the failing load of the store mounted as "acc". -/
theorem claim_C6_witness :
    rootmulti.sampleStore = rootmulti.sampleStore
    ∧ ((∃ e, (fun (_ : Int) => (Except.error "no data" : Except String rootmulti.CommitInfo)) 0
            = .error e ∧ "failed to load Store: boom" = e)
       ∨ (∃ name id e, name ∈ rootmulti.sampleStore.storesParams
            ∧ (rootmulti.failLoadKV name id).2 = some e
            ∧ "failed to load Store: boom" = "failed to load Store: " ++ e)) :=
  claim_C6_load_failure (fun _ => .error "no data") rootmulti.failLoadKV
    rootmulti.sampleStore 0 rootmulti.sampleStore "failed to load Store: boom" rfl

theorem insortKey_perm (x : ByteStr) (l : List ByteStr) :
    List.Perm (cache.insortKey x l) (x :: l) := by
  induction l with
  | nil => exact List.Perm.refl _
  | cons y ys ih =>
    simp only [cache.insortKey]
    by_cases h : lexLt y x = true
    · simp only [h, if_true]
      exact (ih.cons y).trans (List.Perm.swap x y ys)
    · simp only [h, if_false]
      exact List.Perm.refl _

theorem sortStrings_perm (l : List ByteStr) :
    List.Perm (cache.sortStrings l) l := by
  induction l with
  | nil => exact List.Perm.refl _
  | cons x xs ih =>
    simp only [cache.sortStrings, List.foldr_cons] at ih ⊢
    exact (insortKey_perm x _).trans (ih.cons x)

theorem insortKey_sorted (x : ByteStr) (l : List ByteStr)
    (h : l.Pairwise (fun a b => lexLt b a = false)) :
    (cache.insortKey x l).Pairwise (fun a b => lexLt b a = false) := by
  induction l with
  | nil => simp [cache.insortKey]
  | cons y ys ih =>
    rcases List.pairwise_cons.mp h with ⟨hy, hys⟩
    simp only [cache.insortKey]
    by_cases hxy : lexLt y x = true
    · simp only [hxy, if_true]
      refine List.pairwise_cons.mpr ⟨?_, ih hys⟩
      intro a ha
      rcases List.mem_cons.mp ((insortKey_perm x ys).mem_iff.mp ha) with rfl | hmem
      · exact lexLt_asymm y a hxy
      · exact hy a hmem
    · have hxy' : lexLt y x = false := by
        cases hv : lexLt y x
        · rfl
        · exact absurd hv hxy
      simp only [hxy, if_false]
      refine List.pairwise_cons.mpr ⟨?_, h⟩
      intro a ha
      rcases List.mem_cons.mp ha with rfl | hmem
      · exact hxy'
      · have hay := hy a hmem
        cases hax : lexLt a x
        · rfl
        · cases hxy2 : lexLt x y with
          | true => exact absurd (lexLt_trans a x y hax hxy2) (by simp [hay])
          | false =>
            have hxeq : x = y := lexLt_connex x y hxy2 hxy'
            rw [hxeq] at hax
            exact absurd hax (by simp [hay])

theorem sortStrings_sorted (l : List ByteStr) :
    (cache.sortStrings l).Pairwise (fun a b => lexLt b a = false) := by
  induction l with
  | nil => simp [cache.sortStrings]
  | cons x xs ih =>
    simp only [cache.sortStrings, List.foldr_cons] at ih ⊢
    exact insortKey_sorted x _ ih

theorem pairwise_lexLt_of_nodup (l : List ByteStr)
    (hs : l.Pairwise (fun a b => lexLt b a = false)) (hn : l.Nodup) :
    l.Pairwise (fun a b => lexLt a b = true) := by
  refine (hs.and hn).imp ?_
  rintro a b ⟨h1, h2⟩
  cases hab : lexLt a b
  · exact absurd (lexLt_connex a b hab h1) h2
  · rfl

theorem mapGet_eq_some_of_mem (m : cache.CacheMap) (hnd : (m.map Prod.fst).Nodup)
    (k : ByteStr) (cv : cache.CValue) (h : (k, cv) ∈ m) :
    cache.mapGet m k = some cv := by
  induction m with
  | nil => exact absurd h (List.not_mem_nil _)
  | cons p rest ih =>
    obtain ⟨k', cv'⟩ := p
    simp only [List.map_cons, List.nodup_cons] at hnd
    obtain ⟨hk', hnd'⟩ := hnd
    rcases List.mem_cons.mp h with heq | hmem
    · injection heq with h1 h2
      subst h1; subst h2
      simp only [cache.mapGet]
      rw [List.find?_cons_of_pos _ (by simp)]
      rfl
    · have hne : k' ≠ k := by
        intro he
        subst he
        exact hk' (by simpa using List.mem_map_of_mem Prod.fst hmem)
      simp only [cache.mapGet] at ih ⊢
      rw [List.find?_cons_of_neg _ (by simp [hne])]
      exact ih hnd' hmem

theorem mem_of_mapGet_eq_some (m : cache.CacheMap) (k : ByteStr) (cv : cache.CValue)
    (h : cache.mapGet m k = some cv) : (k, cv) ∈ m := by
  simp only [cache.mapGet, Option.map_eq_some'] at h
  obtain ⟨p, hf, hsnd⟩ := h
  have hp := List.find?_some hf
  have hmem := List.mem_of_find?_eq_some hf
  obtain ⟨p1, p2⟩ := p
  simp only [decide_eq_true_eq] at hp
  subst hp
  cases hsnd
  exact hmem

theorem writeOpFor_eq_del_iff (m : cache.CacheMap) (k k' : ByteStr) :
    cache.writeOpFor m k = some (.del k')
      ↔ k' = k ∧ ∃ cv, cache.mapGet m k = some cv ∧ cv.deleted = true := by
  unfold cache.writeOpFor
  cases hg : cache.mapGet m k with
  | none => simp
  | some cv =>
    cases hd : cv.deleted
    · cases hv : cv.value <;> simp [hd, hv]
    · simp only [hd, if_true]
      constructor
      · intro h
        injection h with h'
        injection h' with hk
        subst hk
        exact ⟨rfl, cv, rfl, hd⟩
      · rintro ⟨rfl, cv2, hcv2, hd2⟩
        rfl

theorem writeOpFor_eq_set_iff (m : cache.CacheMap) (k k' v : ByteStr) :
    cache.writeOpFor m k = some (.set k' v)
      ↔ k' = k ∧ ∃ cv, cache.mapGet m k = some cv
          ∧ cv.deleted = false ∧ cv.value = some v := by
  unfold cache.writeOpFor
  cases hg : cache.mapGet m k with
  | none => simp
  | some cv =>
    cases hd : cv.deleted
    · cases hv : cv.value with
      | none => simp [hd, hv]
      | some w =>
        simp only [hd, Bool.false_eq_true, if_false, hv]
        constructor
        · intro h
          injection h with h'
          injection h' with hk hw
          subst hk
          subst hw
          exact ⟨rfl, cv, rfl, hd, hv⟩
        · rintro ⟨rfl, cv2, hcv2, hd2, hv2⟩
          injection hcv2 with hcv2
          subst hcv2
          rw [hv] at hv2
          injection hv2 with hv2
          rw [hv2]
    · simp [hd]

theorem writeOpFor_key (m : cache.CacheMap) (k : ByteStr) (op : cache.WriteOp)
    (h : cache.writeOpFor m k = some op) : op.key = k := by
  cases op with
  | del k' => exact ((writeOpFor_eq_del_iff m k k').mp h).1
  | set k' v => exact ((writeOpFor_eq_set_iff m k k' v).mp h).1

theorem writeOpsOf_key_sublist (m : cache.CacheMap) (keys : List ByteStr) :
    List.Sublist ((cache.writeOpsOf m keys).map cache.WriteOp.key) keys := by
  induction keys with
  | nil => simp [cache.writeOpsOf]
  | cons k ks ih =>
    simp only [cache.writeOpsOf, List.filterMap_cons] at ih ⊢
    cases hf : cache.writeOpFor m k with
    | none => exact List.Sublist.cons k ih
    | some op =>
      simp only [List.map_cons]
      rw [writeOpFor_key m k op hf]
      exact List.Sublist.cons₂ k ih

theorem mem_dirtyKeys_iff (ci : cache.Store) (hnd : (ci.cache.map Prod.fst).Nodup)
    (k : ByteStr) :
    k ∈ (ci.cache.filter (fun p => p.2.dirty)).map Prod.fst
      ↔ ∃ cv, cache.mapGet ci.cache k = some cv ∧ cv.dirty = true := by
  constructor
  · intro hk
    obtain ⟨⟨k0, cv⟩, hmem, hk0⟩ := List.mem_map.mp hk
    simp only at hk0
    subst hk0
    obtain ⟨hmem', hd⟩ := List.mem_filter.mp hmem
    exact ⟨cv, mapGet_eq_some_of_mem _ hnd _ _ hmem', by simpa using hd⟩
  · rintro ⟨cv, hg, hd⟩
    have hmem := mem_of_mapGet_eq_some _ _ _ hg
    exact List.mem_map.mpr ⟨(k, cv), List.mem_filter.mpr ⟨hmem, by simpa using hd⟩, rfl⟩

/-- Claim C3: `write()` clears the whole overlay map (non-dirty snapshots
included), and the parent operations it performs have strictly ascending
byte-lexicographic keys, with a parent delete for exactly the dirty
tombstones and a parent set for exactly the dirty present-value entries
(dirty entries with a nil value produce no parent operation). -/
theorem claim_C3_write_flush (ci : cache.Store) (hnd : (ci.cache.map Prod.fst).Nodup) :
    (cache.Store.Write ci).2 = ⟨[]⟩
    ∧ ((cache.Store.Write ci).1.map cache.WriteOp.key).Pairwise
        (fun a b => lexLt a b = true)
    ∧ (∀ k, cache.WriteOp.del k ∈ (cache.Store.Write ci).1
        ↔ ∃ cv, cache.mapGet ci.cache k = some cv ∧ cv.dirty = true ∧ cv.deleted = true)
    ∧ (∀ k v, cache.WriteOp.set k v ∈ (cache.Store.Write ci).1
        ↔ ∃ cv, cache.mapGet ci.cache k = some cv ∧ cv.dirty = true
            ∧ cv.deleted = false ∧ cv.value = some v) := by
  have hdknd : ((ci.cache.filter (fun p => p.2.dirty)).map Prod.fst).Nodup :=
    hnd.sublist ((List.filter_sublist ci.cache).map Prod.fst)
  have hperm := sortStrings_perm ((ci.cache.filter (fun p => p.2.dirty)).map Prod.fst)
  have hsnd := hperm.nodup_iff.mpr hdknd
  have hstrict := pairwise_lexLt_of_nodup _
    (sortStrings_sorted ((ci.cache.filter (fun p => p.2.dirty)).map Prod.fst)) hsnd
  refine ⟨rfl, ?_, ?_, ?_⟩
  · exact hstrict.sublist (writeOpsOf_key_sublist ci.cache _)
  · intro k
    constructor
    · intro hop
      obtain ⟨k0, hk0, hf⟩ := List.mem_filterMap.mp hop
      obtain ⟨hkeq, cv, hg, hdel⟩ := (writeOpFor_eq_del_iff ci.cache k0 k).mp hf
      subst hkeq
      obtain ⟨cv', hg', hdirty⟩ :=
        (mem_dirtyKeys_iff ci hnd k).mp (hperm.mem_iff.mp hk0)
      rw [hg] at hg'
      injection hg' with hg'
      subst hg'
      exact ⟨cv, hg, hdirty, hdel⟩
    · rintro ⟨cv, hg, hdirty, hdel⟩
      refine List.mem_filterMap.mpr ⟨k, ?_, ?_⟩
      · exact hperm.mem_iff.mpr ((mem_dirtyKeys_iff ci hnd k).mpr ⟨cv, hg, hdirty⟩)
      · exact (writeOpFor_eq_del_iff ci.cache k k).mpr ⟨rfl, cv, hg, hdel⟩
  · intro k v
    constructor
    · intro hop
      obtain ⟨k0, hk0, hf⟩ := List.mem_filterMap.mp hop
      obtain ⟨hkeq, cv, hg, hdel, hval⟩ := (writeOpFor_eq_set_iff ci.cache k0 k v).mp hf
      subst hkeq
      obtain ⟨cv', hg', hdirty⟩ :=
        (mem_dirtyKeys_iff ci hnd k).mp (hperm.mem_iff.mp hk0)
      rw [hg] at hg'
      injection hg' with hg'
      subst hg'
      exact ⟨cv, hg, hdirty, hdel, hval⟩
    · rintro ⟨cv, hg, hdirty, hdel, hval⟩
      refine List.mem_filterMap.mpr ⟨k, ?_, ?_⟩
      · exact hperm.mem_iff.mpr ((mem_dirtyKeys_iff ci hnd k).mpr ⟨cv, hg, hdirty⟩)
      · exact (writeOpFor_eq_set_iff ci.cache k k v).mpr ⟨rfl, cv, hg, hdel, hval⟩

/-- Witness for C3 on a concrete overlay holding a dirty write, a dirty
tombstone, a clean snapshot and a dirty nil-value entry. -/
theorem claim_C3_witness :
    cache.WriteOp.del [1] ∈ (cache.Store.Write
      ⟨[([2], ⟨some [9], false, true⟩), ([1], ⟨none, true, true⟩),
        ([0], ⟨some [7], false, false⟩), ([3], ⟨none, false, true⟩)]⟩).1
    ∧ cache.WriteOp.set [2] [9] ∈ (cache.Store.Write
      ⟨[([2], ⟨some [9], false, true⟩), ([1], ⟨none, true, true⟩),
        ([0], ⟨some [7], false, false⟩), ([3], ⟨none, false, true⟩)]⟩).1
    ∧ (cache.Store.Write
      ⟨[([2], ⟨some [9], false, true⟩), ([1], ⟨none, true, true⟩),
        ([0], ⟨some [7], false, false⟩), ([3], ⟨none, false, true⟩)]⟩).2 = ⟨[]⟩ := by
  have h := claim_C3_write_flush
    ⟨[([2], ⟨some [9], false, true⟩), ([1], ⟨none, true, true⟩),
      ([0], ⟨some [7], false, false⟩), ([3], ⟨none, false, true⟩)]⟩ (by decide)
  refine ⟨?_, ?_, h.1⟩
  · exact (h.2.2.1 [1]).mpr ⟨⟨none, true, true⟩, by decide, rfl, rfl⟩
  · exact (h.2.2.2 [2] [9]).mpr ⟨⟨some [9], false, true⟩, by decide, rfl, rfl, rfl⟩

theorem canonIns_comm (k₁ k₂ : String) (v₁ v₂ : rootmulti.StoreInfo) (hne : k₁ ≠ k₂) :
    ∀ m, rootmulti.canonIns k₂ v₂ (rootmulti.canonIns k₁ v₁ m)
      = rootmulti.canonIns k₁ v₁ (rootmulti.canonIns k₂ v₂ m) := by
  intro m
  induction m with
  | nil =>
    rcases lt_trichotomy k₁ k₂ with h | h | h
    · simp [rootmulti.canonIns, h, lt_asymm h, hne, hne.symm]
    · exact absurd h hne
    · simp [rootmulti.canonIns, h, lt_asymm h, hne, hne.symm]
  | cons p rest ih =>
    obtain ⟨k, v⟩ := p
    rcases lt_trichotomy k₁ k with h1 | h1 | h1 <;>
      rcases lt_trichotomy k₂ k with h2 | h2 | h2
    · rcases lt_trichotomy k₁ k₂ with h3 | h3 | h3
      · simp [rootmulti.canonIns, h1, h2, h3, lt_asymm h3, hne, hne.symm]
      · exact absurd h3 hne
      · simp [rootmulti.canonIns, h1, h2, h3, lt_asymm h3, hne, hne.symm]
    · subst h2
      simp [rootmulti.canonIns, h1, lt_irrefl, hne, hne.symm, lt_asymm h1]
    · have h3 : k₁ < k₂ := lt_trans h1 h2
      simp [rootmulti.canonIns, h1, h2, h3, lt_asymm h1, lt_asymm h2, lt_asymm h3,
        hne, hne.symm, ne_of_gt h2]
    · subst h1
      simp [rootmulti.canonIns, h2, lt_irrefl, hne, hne.symm, lt_asymm h2]
    · exact absurd (h1.trans h2.symm) hne
    · subst h1
      simp [rootmulti.canonIns, h2, lt_irrefl, hne, hne.symm, lt_asymm h2, ne_of_gt h2]
    · have h3 : k₂ < k₁ := lt_trans h2 h1
      simp [rootmulti.canonIns, h1, h2, h3, lt_asymm h1, lt_asymm h2, lt_asymm h3,
        hne, hne.symm, ne_of_gt h1]
    · subst h2
      simp [rootmulti.canonIns, h1, lt_irrefl, hne, hne.symm, lt_asymm h1, ne_of_gt h1]
    · simp only [rootmulti.canonIns, if_neg (not_lt_of_gt h1), if_neg (ne_of_gt h1),
        if_neg (not_lt_of_gt h2), if_neg (ne_of_gt h2)]
      rw [ih]

theorem canonMap_perm (l₁ l₂ : List (String × rootmulti.StoreInfo))
    (h : List.Perm l₁ l₂) (hnd : (l₁.map Prod.fst).Nodup) :
    rootmulti.canonMap l₁ = rootmulti.canonMap l₂ := by
  unfold rootmulti.canonMap
  refine h.foldl_eq' ?_ []
  intro x hx y hy z
  by_cases hxy : x = y
  · subst hxy; rfl
  · have hne : x.1 ≠ y.1 := fun he => hxy (List.inj_on_of_nodup_map hnd hx hy he)
    exact canonIns_comm x.1 y.1 x.2 y.2 hne z

theorem commitInfoHash_perm (v : Int) (l₁ l₂ : List rootmulti.StoreInfo)
    (h : List.Perm l₁ l₂) (hnd : (l₁.map rootmulti.StoreInfo.Name).Nodup) :
    (rootmulti.CommitInfo.mk v l₁).Hash = (rootmulti.CommitInfo.mk v l₂).Hash := by
  unfold rootmulti.CommitInfo.Hash rootmulti.simpleHashFromMap
  congr 1
  refine canonMap_perm _ _ (h.map _) ?_
  simpa [List.map_map, Function.comp] using hnd

theorem commitStores_names_sublist (subCommit : String → rootmulti.SubStore → rootmulti.CommitID)
    (v : Int) (sm : List (String × rootmulti.SubStore)) :
    List.Sublist ((rootmulti.commitStores subCommit v sm).StoreInfos.map rootmulti.StoreInfo.Name)
      (sm.map Prod.fst) := by
  induction sm with
  | nil => simp [rootmulti.commitStores]
  | cons e rest ih =>
    simp only [rootmulti.commitStores, List.filterMap_cons] at ih ⊢
    by_cases hz : (subCommit e.1 e.2).isZero = true
    · simp only [hz, if_true, List.map_cons]
      exact List.Sublist.cons e.1 ih
    · simp only [hz, if_false, List.map_cons]
      exact List.Sublist.cons₂ e.1 ih

/-- Claim C2: the root hash is a function of the set of
(name, commit id) pairs alone: committing the same pairs in any iteration
order of the store map yields the same commit-info hash, and the hash of
a commit info is invariant under reordering of its `StoreInfos` entries
(the hash is the merkle root of the map name -> storeInfo). -/
theorem claim_C2_root_hash_determinism
    (subCommit : String → rootmulti.SubStore → rootmulti.CommitID) (v : Int)
    (sm₁ sm₂ : List (String × rootmulti.SubStore))
    (hperm : List.Perm sm₁ sm₂) (hnd : (sm₁.map Prod.fst).Nodup) :
    (rootmulti.commitStores subCommit v sm₁).Hash
      = (rootmulti.commitStores subCommit v sm₂).Hash
    ∧ (∀ (infos₁ infos₂ : List rootmulti.StoreInfo),
        List.Perm infos₁ infos₂ → (infos₁.map rootmulti.StoreInfo.Name).Nodup →
        (rootmulti.CommitInfo.mk v infos₁).Hash
          = (rootmulti.CommitInfo.mk v infos₂).Hash) := by
  constructor
  · have hpi : List.Perm (rootmulti.commitStores subCommit v sm₁).StoreInfos
        (rootmulti.commitStores subCommit v sm₂).StoreInfos := hperm.filterMap _
    have hndi : ((rootmulti.commitStores subCommit v sm₁).StoreInfos.map
        rootmulti.StoreInfo.Name).Nodup :=
      hnd.sublist (commitStores_names_sublist subCommit v sm₁)
    exact commitInfoHash_perm v _ _ hpi hndi
  · intro infos₁ infos₂ hp hn
    exact commitInfoHash_perm v _ _ hp hn

/-- Witness for C2: two mount orders of the same two sub-stores produce
the same root hash. -/
theorem claim_C2_witness :
    (rootmulti.commitStores (fun n _ => if n = "a" then ⟨1, [3]⟩ else ⟨1, [4]⟩) 1
        [("a", ⟨0, none, false⟩), ("b", ⟨1, none, false⟩)]).Hash
      = (rootmulti.commitStores (fun n _ => if n = "a" then ⟨1, [3]⟩ else ⟨1, [4]⟩) 1
        [("b", ⟨1, none, false⟩), ("a", ⟨0, none, false⟩)]).Hash :=
  (claim_C2_root_hash_determinism (fun n _ => if n = "a" then ⟨1, [3]⟩ else ⟨1, [4]⟩) 1
    [("a", ⟨0, none, false⟩), ("b", ⟨1, none, false⟩)]
    [("b", ⟨1, none, false⟩), ("a", ⟨0, none, false⟩)]
    (List.Perm.swap (("b", ⟨1, none, false⟩) : String × rootmulti.SubStore)
      (("a", ⟨0, none, false⟩) : String × rootmulti.SubStore) [])
    (by decide)).1
